import Mathlib

/-!
Shallow embedding of `generate_test_samples.py` (class `TestSampleGenerator`).

The program draws from two random libraries whose integer samplers differ:
Python's `random.randint(lo, hi)` is uniform over the INCLUSIVE range
`[lo, hi]`, while `np.random.randint(lo, hi)` is uniform over the
half-open range `[lo, hi)` (upper bound exclusive).  Both are modelled
here as functions of an explicit draw `r : ℕ`: as `r` ranges over the
naturals the result ranges uniformly over exactly the sampler's range.

Images are modelled as functions from row, column and channel index to a
channel value; each call that consumes randomness takes its draws as
explicit arguments, so independence of draws is explicit in the model.
-/

set_option autoImplicit false

namespace StampGen

/-- Model of Python `random.randint lo hi`: uniform over the inclusive
integer range `[lo, hi]`, driven by an explicit uniform draw `r`. -/
def pyRandint (lo hi r : ℕ) : ℕ := lo + r % (hi - lo + 1)

/-- Model of `np.random.randint lo hi`: uniform over the half-open range
`[lo, hi)` (upper bound EXCLUSIVE), driven by an explicit draw `r`. -/
def npRandint (lo hi r : ℕ) : ℕ := lo + r % (hi - lo)

/-- An RGB image: row index, column index, channel index to 8-bit value. -/
abbrev Img := ℕ → ℕ → ℕ → ℕ

theorem le_pyRandint (lo hi r : ℕ) : lo ≤ pyRandint lo hi r :=
  Nat.le_add_right lo _

theorem pyRandint_le (lo hi r : ℕ) (h : lo ≤ hi) : pyRandint lo hi r ≤ hi := by
  have hlt : r % (hi - lo + 1) < hi - lo + 1 := Nat.mod_lt r (Nat.succ_pos _)
  have hle : r % (hi - lo + 1) ≤ hi - lo := Nat.lt_succ_iff.mp hlt
  calc lo + r % (hi - lo + 1) ≤ lo + (hi - lo) := Nat.add_le_add_left hle lo
    _ = hi := by omega

theorem pyRandint_hits (lo hi v : ℕ) (h1 : lo ≤ v) (h2 : v ≤ hi) :
    pyRandint lo hi (v - lo) = v := by
  unfold pyRandint
  rw [Nat.mod_eq_of_lt (by omega : v - lo < hi - lo + 1)]
  omega

theorem le_npRandint (lo hi r : ℕ) : lo ≤ npRandint lo hi r :=
  Nat.le_add_right lo _

theorem npRandint_lt (lo hi r : ℕ) (h : lo < hi) : npRandint lo hi r < hi := by
  have hlt : r % (hi - lo) < hi - lo := Nat.mod_lt r (by omega)
  calc lo + r % (hi - lo) < lo + (hi - lo) := Nat.add_lt_add_left hlt lo
    _ = hi := by omega

theorem npRandint_hits (lo hi v : ℕ) (h1 : lo ≤ v) (h2 : v < hi) :
    npRandint lo hi (v - lo) = v := by
  unfold npRandint
  rw [Nat.mod_eq_of_lt (by omega : v - lo < hi - lo)]
  omega

/-! ## `create_synthetic_stamp` (source lines 20-44)

`margin = 10`; `draw.ellipse([margin, margin, size[0]-margin,
size[1]-margin], outline, width=3)`; then `random.randint(3, 6)` glyphs,
each at `(random.randint(margin*2, size[0]-margin*2),
random.randint(margin*2, size[1]-margin*2))`. -/

def stampMargin : ℕ := 10

def stampBorderWidth : ℕ := 3

/-- Bounding box of the stamp's circle outline, as the pair of its
top-left and bottom-right corners. -/
def stampEllipseBox (size : ℕ × ℕ) : (ℕ × ℕ) × (ℕ × ℕ) :=
  ((stampMargin, stampMargin), (size.1 - stampMargin, size.2 - stampMargin))

def stampGlyphCount (r : ℕ) : ℕ := pyRandint 3 6 r

def stampGlyphX (size : ℕ × ℕ) (r : ℕ) : ℕ :=
  pyRandint (stampMargin * 2) (size.1 - stampMargin * 2) r

def stampGlyphY (size : ℕ × ℕ) (r : ℕ) : ℕ :=
  pyRandint (stampMargin * 2) (size.2 - stampMargin * 2) r

/-! ## `create_background_image` (source lines 46-65) -/

/-- The noise fill `np.random.randint(200, 255, (*size, 3), dtype=np.uint8)`:
each channel of each pixel gets its own independent draw `seed i j c`. -/
def backgroundNoise (seed : ℕ → ℕ → ℕ → ℕ) : Img :=
  fun i j c => npRandint 200 255 (seed i j c)

/-- `random.randint(2, 5)`: how many line segments are drawn. -/
def numBgLines (r : ℕ) : ℕ := pyRandint 2 5 r

/-- A line endpoint `(random.randint(0, size[0]), random.randint(0, size[1]))`. -/
def bgLinePoint (size : ℕ × ℕ) (r1 r2 : ℕ) : ℕ × ℕ :=
  (pyRandint 0 size.1 r1, pyRandint 0 size.2 r2)

/-- One channel of a line color `random.randint(100, 200)`. -/
def bgLineColorChan (r : ℕ) : ℕ := pyRandint 100 200 r

/-- The `2` passed to `cv2.line` as stroke thickness. -/
def bgLineWidth : ℕ := 2

/-! ## `generate_samples` (source lines 67-107) -/

/-- Per-channel value of `cv2.addWeighted(roi, 1-alpha, stamp, alpha, 0)`
with `alpha = 0.7`, in exact arithmetic: `saturate(round(0.3*b + 0.7*s))`,
with round-half-up realised on naturals as `(3*b + 7*s + 5) / 10`. -/
def addWeightedChannel (b s : ℕ) : ℕ := min 255 ((3 * b + 7 * s + 5) / 10)

/-- The spec's blend formula, written independently from the spec's words:
`output = 0.3 * background + 0.7 * stamp, per channel, rounded/clamped to
[0, 255]`, in exact rational arithmetic. -/
def blendSpec (b s : ℕ) : ℤ :=
  max 0 (min 255 (round ((3 * (b : ℚ) + 7 * (s : ℚ)) / 10)))

/-- The slice assignment
`base_image[y:y+h, x:x+w] = cv2.addWeighted(base_image[y:y+h, x:x+w], 0.3, stamp, 0.7, 0)`:
pixels inside the placement rectangle are blended, all others keep the
background value. -/
def compositeAt (bg stamp : Img) (x y h w : ℕ) : Img :=
  fun i j c =>
    if y ≤ i ∧ i < y + h ∧ x ≤ j ∧ j < x + w then
      addWeightedChannel (bg i j c) (stamp (i - y) (j - x) c)
    else bg i j c

/-- `x = random.randint(0, base_image.shape[1] - stamp.shape[1])`. -/
def placementX (bgW stampW r : ℕ) : ℕ := pyRandint 0 (bgW - stampW) r

/-- `y = random.randint(0, base_image.shape[0] - stamp.shape[0])`. -/
def placementY (bgH stampH r : ℕ) : ℕ := pyRandint 0 (bgH - stampH) r

/-- Both `create_background_image()` and `create_synthetic_stamp()` are
called with their default `size=(128, 128)`. -/
def defaultSize : ℕ := 128

/-- The stamp branch of one `generate_samples` iteration: place the stamp
at the random offset and blend, both images at the default size. -/
def generateStampImage (bg stamp : Img) (rx ry : ℕ) : Img :=
  compositeAt bg stamp (placementX defaultSize defaultSize rx)
    (placementY defaultSize defaultSize ry) defaultSize defaultSize

/-- The filename chosen in iteration `i` (0-based): `stamp_{i+1}.jpg` when
the coin says the sample has a stamp, else `no_stamp_{i+1}.jpg`; here
`idx` is already the 1-based index `i+1`. -/
def sampleFilename (hasStamp : Bool) (idx : ℕ) : List Char :=
  ((if hasStamp then "stamp_" else "no_stamp_") ++ Nat.repr idx ++ ".jpg").toList

/-- The labelled directory listing produced by `generate_samples`: for each
`i` in `range n`, one entry holding the coin flip and the 1-based index. -/
def generatedEntries (coin : ℕ → Bool) (n : ℕ) : List (Bool × ℕ) :=
  (List.range n).map fun i => (coin i, i + 1)

/-- The filenames written by `generate_samples`. -/
def generatedNames (coin : ℕ → Bool) (n : ℕ) : List (List Char) :=
  (generatedEntries coin n).map fun p => sampleFilename p.1 p.2

/-- `str.startswith` on character lists. -/
def listBeginsWith : List Char → List Char → Bool
  | [], _ => true
  | _ :: _, [] => false
  | p :: ps, c :: cs => p == c && listBeginsWith ps cs

/-! ## `verify_samples` (source lines 109-125) -/

/-- `verify_samples`: tally the directory listing by the `stamp_` and
`no_stamp_` filename prefixes and return `len(files) > 0`.  Result:
(total count, stamp count, no-stamp count, returned boolean). -/
def verify_samples (files : List (List Char)) : ℕ × ℕ × ℕ × Bool :=
  let stampFiles := files.filter fun f => listBeginsWith ("stamp_".toList) f
  let noStampFiles := files.filter fun f => listBeginsWith ("no_stamp_".toList) f
  (files.length, stampFiles.length, noStampFiles.length, decide (0 < files.length))

/-! ## Error propagation in `generate_samples`

The loop body builds images and writes one file per index; the whole loop
sits in a single `try` whose handler logs and re-raises.  Each iteration
is modelled as a fallible step; the run returns the files written before
the first failure together with the propagated error, if any. -/

def runBatchLog {E A : Type} (step : ℕ → Except E A) : List ℕ → List A × Option E
  | [] => ([], none)
  | i :: is =>
    match step i with
    | Except.error e => ([], some e)
    | Except.ok a =>
      let rest := runBatchLog step is
      (a :: rest.1, rest.2)

/-- `generate_samples` as a batch over `for i in range(num_samples)`. -/
def generateSamplesRun {E A : Type} (step : ℕ → Except E A) (n : ℕ) :
    List A × Option E :=
  runBatchLog step (List.range n)

theorem runBatchLog_cons_ok {E A : Type} (step : ℕ → Except E A) (i : ℕ)
    (is : List ℕ) (a : A) (h : step i = Except.ok a) :
    runBatchLog step (i :: is) =
      (a :: (runBatchLog step is).1, (runBatchLog step is).2) := by
  simp [runBatchLog, h]

theorem runBatchLog_cons_error {E A : Type} (step : ℕ → Except E A) (i : ℕ)
    (is : List ℕ) (e : E) (h : step i = Except.error e) :
    runBatchLog step (i :: is) = ([], some e) := by
  simp [runBatchLog, h]

/-! ## Claims -/

/-- C1: for every run of `generate_samples n` into an empty output
directory, exactly one file named `stamp_{i}.jpg` or `no_stamp_{i}.jpg` is
written for each 1-based index `i ≤ n`, with no index repeated or skipped;
the total number of files written equals `n`. -/
theorem C1_unique_indexed_files (coin : ℕ → Bool) (n : ℕ) :
    (generatedEntries coin n).length = n ∧
    (generatedNames coin n).length = n ∧
    (generatedEntries coin n).map Prod.snd = List.range' 1 n ∧
    ((generatedEntries coin n).map Prod.snd).Nodup ∧
    ∀ p ∈ generatedEntries coin n, 1 ≤ p.2 ∧ p.2 ≤ n ∧ p.1 = coin (p.2 - 1) := by
  have hmap : (generatedEntries coin n).map Prod.snd = List.range' 1 n := by
    rw [generatedEntries, List.map_map, List.range'_eq_map_range]
    exact List.map_congr_left fun a _ => by simp [Nat.add_comm]
  refine ⟨by simp [generatedEntries], by simp [generatedNames, generatedEntries],
    hmap, ?_, ?_⟩
  · rw [hmap]
    exact List.nodup_range' 1 n
  · intro p hp
    simp only [generatedEntries, List.mem_map, List.mem_range] at hp
    obtain ⟨a, ha, rfl⟩ := hp
    exact ⟨by omega, by omega, by simp⟩

theorem C1_unique_indexed_files_witness :
    (generatedEntries (fun _ => true) 3).length = 3 ∧
    (1 ≤ (true, 2).2 ∧ (true, 2).2 ≤ 3 ∧ (true, 2).1 = (fun _ => true) ((true, 2).2 - 1)) :=
  ⟨(C1_unique_indexed_files (fun _ => true) 3).1,
    (C1_unique_indexed_files (fun _ => true) 3).2.2.2.2 (true, 2) (by decide)⟩

/-- C2 counterexample: the noise fill uses `np.random.randint(200, 255)`,
whose upper bound is exclusive, so no channel ever gets the value 255 and
the claimed inclusive range `[200, 255]` is wrong. -/
theorem C2_noise_range_counterexample :
    ¬ ∃ r : ℕ, backgroundNoise (fun _ _ _ => r) 0 0 0 = 255 := by
  rintro ⟨r, h⟩
  have := npRandint_lt 200 255 r (by norm_num)
  simp only [backgroundNoise] at h
  omega

/-- C2 (amended): every channel of every pixel of the noise fill is an
independent uniform sample from `[200, 254]` inclusive (the upper bound
255 of `np.random.randint` is exclusive): each value is in that range and
each value of that range is attained by some draw. -/
theorem C2_noise_range (seed : ℕ → ℕ → ℕ → ℕ) (i j c : ℕ) :
    200 ≤ backgroundNoise seed i j c ∧
    backgroundNoise seed i j c ≤ 254 ∧
    ∀ v, 200 ≤ v → v ≤ 254 →
      ∃ s2 : ℕ → ℕ → ℕ → ℕ, backgroundNoise s2 i j c = v := by
  refine ⟨le_npRandint 200 255 (seed i j c), ?_, ?_⟩
  · have := npRandint_lt 200 255 (seed i j c) (by norm_num)
    simp only [backgroundNoise]
    omega
  · intro v h1 h2
    exact ⟨fun _ _ _ => v - 200, npRandint_hits 200 255 v h1 (by omega)⟩

theorem C2_noise_range_witness :
    (200 ≤ backgroundNoise (fun _ _ _ => 0) 0 0 0 ∧
      backgroundNoise (fun _ _ _ => 0) 0 0 0 ≤ 254) ∧
    ∃ s2 : ℕ → ℕ → ℕ → ℕ, backgroundNoise s2 0 0 0 = 254 :=
  ⟨⟨(C2_noise_range (fun _ _ _ => 0) 0 0 0).1,
      (C2_noise_range (fun _ _ _ => 0) 0 0 0).2.1⟩,
    (C2_noise_range (fun _ _ _ => 0) 0 0 0).2.2 254 (by norm_num) (by norm_num)⟩

theorem addWeightedChannel_eq_blendSpec (b s : ℕ) :
    (addWeightedChannel b s : ℤ) = blendSpec b s := by
  have hhalf : (3 * (b : ℚ) + 7 * (s : ℚ)) / 10 + 1 / 2
      = ((3 * b + 7 * s + 5 : ℕ) : ℚ) / ((10 : ℕ) : ℚ) := by
    push_cast
    ring
  have hround : round ((3 * (b : ℚ) + 7 * (s : ℚ)) / 10)
      = (((3 * b + 7 * s + 5) / 10 : ℕ) : ℤ) := by
    rw [round_eq, hhalf, Rat.floor_natCast_div_natCast]
    exact (Int.natCast_div _ _).symm
  unfold addWeightedChannel blendSpec
  rw [hround]
  push_cast
  omega

/-- C3: inside the stamp's bounding rectangle, every channel of the
composited image equals the `addWeighted` blend of background and stamp,
and that blend equals the spec's formula
`0.3 * background + 0.7 * stamp`, rounded and clamped to `[0, 255]`. -/
theorem C3_blend_formula (bg stamp : Img) (x y h w i j c : ℕ)
    (h1 : y ≤ i) (h2 : i < y + h) (h3 : x ≤ j) (h4 : j < x + w) :
    compositeAt bg stamp x y h w i j c
      = addWeightedChannel (bg i j c) (stamp (i - y) (j - x) c) ∧
    ∀ b s : ℕ, (addWeightedChannel b s : ℤ) = blendSpec b s :=
  ⟨by simp [compositeAt, h1, h2, h3, h4],
    fun b s => addWeightedChannel_eq_blendSpec b s⟩

theorem C3_blend_formula_witness :
    compositeAt (fun _ _ _ => 100) (fun _ _ _ => 200) 0 0 128 128 5 6 0
      = addWeightedChannel 100 200 ∧
    (addWeightedChannel 17 3 : ℤ) = blendSpec 17 3 :=
  ⟨(C3_blend_formula (fun _ _ _ => 100) (fun _ _ _ => 200) 0 0 128 128 5 6 0
      (by norm_num) (by norm_num) (by norm_num) (by norm_num)).1,
    (C3_blend_formula (fun _ _ _ => 100) (fun _ _ _ => 200) 0 0 128 128 5 6 0
      (by norm_num) (by norm_num) (by norm_num) (by norm_num)).2 17 3⟩

/-- C4: every pixel outside the stamp's placement rectangle
`[y, y+h) × [x, x+w)` is left equal to the background image before
compositing; only the placement rectangle is modified. -/
theorem C4_outside_unchanged (bg stamp : Img) (x y h w i j c : ℕ)
    (hout : ¬(y ≤ i ∧ i < y + h ∧ x ≤ j ∧ j < x + w)) :
    compositeAt bg stamp x y h w i j c = bg i j c := by
  simp only [compositeAt]
  rw [if_neg hout]

theorem C4_outside_unchanged_witness :
    compositeAt (fun _ _ _ => 7) (fun _ _ _ => 9) 0 0 128 128 200 3 1 = 7 :=
  C4_outside_unchanged (fun _ _ _ => 7) (fun _ _ _ => 9) 0 0 128 128 200 3 1
    (by decide)

/-- C5: `verify_samples` returns true iff the output directory holds at
least one file: true after `generate_samples n` with `n ≥ 1`, false on an
empty directory; the tally partitions names by the `stamp_` / `no_stamp_`
prefixes and is a pure (read-only) function of the listing. -/
theorem C5_verify_nonempty (files : List (List Char)) :
    ((verify_samples files).2.2.2 = true ↔ files ≠ []) ∧
    (verify_samples []).2.2.2 = false ∧
    ∀ (coin : ℕ → Bool) (n : ℕ), 1 ≤ n →
      (verify_samples (generatedNames coin n)).2.2.2 = true := by
  refine ⟨?_, rfl, ?_⟩
  · simp [verify_samples, List.length_pos]
  · intro coin n hn
    simp only [verify_samples, generatedNames, generatedEntries, List.length_map,
      List.length_range, decide_eq_true_eq]
    omega

theorem C5_verify_nonempty_witness :
    (verify_samples (generatedNames (fun _ => false) 2)).2.2.2 = true :=
  (C5_verify_nonempty []).2.2 (fun _ => false) 2 (by norm_num)

/-- C6: the placement offset is uniform with `x ∈ [0, bgW - sW]` and
`y ∈ [0, bgH - sH]` (each value attainable), so the stamp's rectangle
always lies entirely within the background image. -/
theorem C6_placement_in_bounds (bgW bgH sW sH r1 r2 : ℕ)
    (hW : sW ≤ bgW) (hH : sH ≤ bgH) :
    placementX bgW sW r1 ≤ bgW - sW ∧
    placementY bgH sH r2 ≤ bgH - sH ∧
    placementX bgW sW r1 + sW ≤ bgW ∧
    placementY bgH sH r2 + sH ≤ bgH ∧
    (∀ v, v ≤ bgW - sW → ∃ r, placementX bgW sW r = v) ∧
    (∀ v, v ≤ bgH - sH → ∃ r, placementY bgH sH r = v) := by
  simp only [placementX, placementY]
  have hx := pyRandint_le 0 (bgW - sW) r1 (Nat.zero_le _)
  have hy := pyRandint_le 0 (bgH - sH) r2 (Nat.zero_le _)
  refine ⟨hx, hy, by omega, by omega, ?_, ?_⟩
  · intro v hv
    exact ⟨v, pyRandint_hits 0 (bgW - sW) v (Nat.zero_le _) hv⟩
  · intro v hv
    exact ⟨v, pyRandint_hits 0 (bgH - sH) v (Nat.zero_le _) hv⟩

theorem C6_placement_in_bounds_witness :
    placementX 128 128 5 + 128 ≤ 128 ∧ ∃ r, placementX 128 128 r = 0 :=
  ⟨(C6_placement_in_bounds 128 128 128 128 5 7 (le_refl 128) (le_refl 128)).2.2.1,
    (C6_placement_in_bounds 128 128 128 128 5 7 (le_refl 128)
      (le_refl 128)).2.2.2.2.1 0 (Nat.zero_le _)⟩

/-- C7: the stamp invariant — the circle outline is inset by the fixed
margin 10 on all sides and its bounding box lies strictly within the
canvas, the border stroke width is 3, the glyph count is in `[3, 6]`, and
every glyph position lies within `[2*margin, size - 2*margin]` per axis. -/
theorem C7_stamp_invariant (size : ℕ × ℕ) (r rx ry : ℕ)
    (h1 : 40 ≤ size.1) (h2 : 40 ≤ size.2) :
    stampEllipseBox size = ((10, 10), (size.1 - 10, size.2 - 10)) ∧
    0 < (stampEllipseBox size).1.1 ∧ 0 < (stampEllipseBox size).1.2 ∧
    (stampEllipseBox size).2.1 < size.1 - 1 ∧
    (stampEllipseBox size).2.2 < size.2 - 1 ∧
    stampBorderWidth = 3 ∧
    3 ≤ stampGlyphCount r ∧ stampGlyphCount r ≤ 6 ∧
    2 * stampMargin ≤ stampGlyphX size rx ∧
    stampGlyphX size rx ≤ size.1 - 2 * stampMargin ∧
    2 * stampMargin ≤ stampGlyphY size ry ∧
    stampGlyphY size ry ≤ size.2 - 2 * stampMargin := by
  have hgx1 : stampMargin * 2 ≤ stampGlyphX size rx := le_pyRandint _ _ rx
  have hgx2 : stampGlyphX size rx ≤ size.1 - stampMargin * 2 :=
    pyRandint_le _ _ rx (by simp only [stampMargin]; omega)
  have hgy1 : stampMargin * 2 ≤ stampGlyphY size ry := le_pyRandint _ _ ry
  have hgy2 : stampGlyphY size ry ≤ size.2 - stampMargin * 2 :=
    pyRandint_le _ _ ry (by simp only [stampMargin]; omega)
  have hm : stampMargin = 10 := rfl
  refine ⟨rfl, by norm_num [stampEllipseBox, stampMargin],
    by norm_num [stampEllipseBox, stampMargin], ?_, ?_, rfl,
    le_pyRandint 3 6 r, pyRandint_le 3 6 r (by norm_num),
    by omega, by omega, by omega, by omega⟩
  · simp only [stampEllipseBox, stampMargin]
    omega
  · simp only [stampEllipseBox, stampMargin]
    omega

theorem C7_stamp_invariant_witness :
    stampEllipseBox (128, 128) = ((10, 10), (118, 118)) ∧
    3 ≤ stampGlyphCount 9 ∧
    2 * stampMargin ≤ stampGlyphX (128, 128) 4 ∧
    stampGlyphX (128, 128) 4 ≤ 128 - 2 * stampMargin :=
  ⟨(C7_stamp_invariant (128, 128) 9 4 6 (by norm_num) (by norm_num)).1,
    (C7_stamp_invariant (128, 128) 9 4 6 (by norm_num)
      (by norm_num)).2.2.2.2.2.2.1,
    (C7_stamp_invariant (128, 128) 9 4 6 (by norm_num)
      (by norm_num)).2.2.2.2.2.2.2.2.1,
    (C7_stamp_invariant (128, 128) 9 4 6 (by norm_num)
      (by norm_num)).2.2.2.2.2.2.2.2.2.1⟩

/-- C8 counterexample: `random.randint(0, size)` in Python includes its
upper bound, so a line endpoint coordinate equal to 128 (one past the
last pixel index 127 of a 128-wide canvas) is attainable; the claimed
per-coordinate range `[0, size-1]` is wrong. -/
theorem C8_endpoint_counterexample :
    (bgLinePoint (128, 128) 128 0).1 = 128 ∧
    ¬(bgLinePoint (128, 128) 128 0).1 ≤ 127 := by
  decide

/-- C8 (amended): `create_background_image` draws between 2 and 5 line
segments inclusive, each endpoint coordinate drawn uniformly from
`[0, size]` INCLUSIVE (so it may exceed the last pixel index `size - 1`
by one), per-channel color uniform in `[100, 200]`, stroke width 2. -/
theorem C8_background_lines (size : ℕ × ℕ) (r1 r2 r3 rc : ℕ) :
    2 ≤ numBgLines r3 ∧ numBgLines r3 ≤ 5 ∧
    (bgLinePoint size r1 r2).1 ≤ size.1 ∧
    (bgLinePoint size r1 r2).2 ≤ size.2 ∧
    (∀ v, v ≤ size.1 → ∃ r, (bgLinePoint size r 0).1 = v) ∧
    (∀ v, v ≤ size.2 → ∃ r, (bgLinePoint size 0 r).2 = v) ∧
    100 ≤ bgLineColorChan rc ∧ bgLineColorChan rc ≤ 200 ∧
    bgLineWidth = 2 := by
  refine ⟨le_pyRandint 2 5 r3, pyRandint_le 2 5 r3 (by norm_num),
    pyRandint_le 0 size.1 r1 (Nat.zero_le _),
    pyRandint_le 0 size.2 r2 (Nat.zero_le _), ?_, ?_,
    le_pyRandint 100 200 rc, pyRandint_le 100 200 rc (by norm_num), rfl⟩
  · intro v hv
    exact ⟨v, pyRandint_hits 0 size.1 v (Nat.zero_le _) hv⟩
  · intro v hv
    exact ⟨v, pyRandint_hits 0 size.2 v (Nat.zero_le _) hv⟩

theorem C8_background_lines_witness :
    2 ≤ numBgLines 11 ∧ (bgLinePoint (128, 128) 3 4).1 ≤ 128 ∧
    (∃ r, (bgLinePoint (128, 128) r 0).1 = 128) ∧ bgLineWidth = 2 :=
  ⟨(C8_background_lines (128, 128) 3 4 11 6).1,
    (C8_background_lines (128, 128) 3 4 11 6).2.2.1,
    (C8_background_lines (128, 128) 3 4 11 6).2.2.2.2.1 128 (le_refl 128),
    (C8_background_lines (128, 128) 3 4 11 6).2.2.2.2.2.2.2.2⟩

theorem runBatchLog_ok_append {E A : Type} (step : ℕ → Except E A) (f : ℕ → A)
    (l1 : List ℕ) (k : ℕ) (l2 : List ℕ) (e : E)
    (hok : ∀ j ∈ l1, step j = Except.ok (f j)) (hk : step k = Except.error e) :
    runBatchLog step (l1 ++ k :: l2) = (l1.map f, some e) := by
  induction l1 with
  | nil => simpa using runBatchLog_cons_error step k l2 e hk
  | cons a l1 ih =>
    rw [List.cons_append,
      runBatchLog_cons_ok step a _ (f a) (hok a (List.mem_cons_self a l1)),
      ih fun j hj => hok j (List.mem_cons_of_mem a hj)]
    simp

/-- C9: if building or writing the `k`-th sample fails while all earlier
steps succeed, the whole batch aborts immediately: exactly the first `k`
samples exist, no later sample is generated, and the error is re-raised
unchanged to the caller — no per-sample recovery or retry. -/
theorem C9_batch_aborts {E A : Type} (step : ℕ → Except E A) (f : ℕ → A)
    (n k : ℕ) (e : E) (hkn : k < n)
    (hok : ∀ j, j < k → step j = Except.ok (f j))
    (hk : step k = Except.error e) :
    generateSamplesRun step n = ((List.range k).map f, some e) := by
  obtain ⟨m, rfl⟩ : ∃ m, n = k + 1 + m := ⟨n - (k + 1), by omega⟩
  have hsplit : List.range (k + 1 + m)
      = List.range k ++ k :: ((List.range m).map fun x => k + 1 + x) := by
    rw [show k + 1 + m = k + (m + 1) by omega, List.range_add,
      List.range_succ_eq_map, List.map_cons, List.map_map]
    simp only [Nat.add_zero]
    congr 2
    exact List.map_congr_left fun a _ => by
      simp only [Function.comp_apply, Nat.succ_eq_add_one]
      omega
  simp only [generateSamplesRun]
  rw [hsplit]
  exact runBatchLog_ok_append step f (List.range k) k _ e
    (fun j hj => hok j (List.mem_range.mp hj)) hk

theorem C9_batch_aborts_witness :
    generateSamplesRun
        (fun i => if i < 2 then Except.ok i else Except.error 42) 5
      = ([0, 1], some 42) :=
  C9_batch_aborts (fun i => if i < 2 then Except.ok i else Except.error 42)
    (fun i => i) 5 2 42 (by norm_num) (fun j hj => if_pos hj) rfl

/-- C10 (implicit): both images are built at the default 128×128 size, so
the random placement offset is always exactly `(0, 0)` and the blended
rectangle covers the whole image: every pixel of a stamp sample is the
blend of background and stamp, none survives unblended. -/
theorem C10_whole_image_blend (bg stamp : Img) (rx ry i j c : ℕ)
    (hi : i < 128) (hj : j < 128) :
    placementX defaultSize defaultSize rx = 0 ∧
    placementY defaultSize defaultSize ry = 0 ∧
    generateStampImage bg stamp rx ry i j c
      = addWeightedChannel (bg i j c) (stamp i j c) := by
  have hx : placementX defaultSize defaultSize rx = 0 := by
    simp only [placementX, pyRandint, defaultSize]
    omega
  have hy : placementY defaultSize defaultSize ry = 0 := by
    simp only [placementY, pyRandint, defaultSize]
    omega
  refine ⟨hx, hy, ?_⟩
  simp only [generateStampImage, hx, hy]
  simp [compositeAt, defaultSize, hi, hj]

theorem C10_whole_image_blend_witness :
    placementX defaultSize defaultSize 99 = 0 ∧
    placementY defaultSize defaultSize 7 = 0 ∧
    generateStampImage (fun _ _ _ => 10) (fun _ _ _ => 30) 99 7 0 0 2
      = addWeightedChannel 10 30 :=
  C10_whole_image_blend (fun _ _ _ => 10) (fun _ _ _ => 30) 99 7 0 0 2
    (by norm_num) (by norm_num)

end StampGen
